import Mathlib

/-!
Verification development for the `Generative-AI-Projects` repository.

Part I models the two React frontends that are present in the repository
sources (`calendar-agent-dashboard/src/App.jsx` and the local RAG chatbot's
`frontend/src/App.jsx`) as pure functions on explicit state.

Part II models the Personal Scheduler Agent's backend core (RoutineStore,
ConflictResolver, RangeScheduler, CommandInterpreter).  That backend code is
not part of the repository snapshot, so those definitions are modelled from
the specification's own wording.

Times of day are minutes since midnight (09:00 = 540); dates are day indices
with weekday `date % 7`.
-/

/-! ## Part I.a — Calendar agent dashboard (`calendar-agent-dashboard/src/App.jsx`) -/

/-- The JSON body posted by `handleScheduleRange` (App.jsx lines 50–54). -/
structure ScheduleIntentPayload where
  start_date : Option String
  days : Nat
  allow_reschedule : Bool
deriving Repr, DecidableEq

/-- The JSON body posted by `handleClearRange` (App.jsx lines 70–73). -/
structure ClearIntentPayload where
  start_date : Option String
  days : Nat
deriving Repr, DecidableEq

/-- A backend request issued by the dashboard. -/
inductive DashboardRequest where
  | schedulePost (payload : ScheduleIntentPayload)
  | clearPost (payload : ClearIntentPayload)
  | commandPost (command : String)
deriving Repr, DecidableEq

/-- `handleScheduleRange(days)`: posts `{start_date: null, days, allow_reschedule: true}`
to `/schedule` (App.jsx lines 46–64). -/
def handleScheduleRange (days : Nat) : DashboardRequest :=
  .schedulePost { start_date := none, days := days, allow_reschedule := true }

/-- `handleClearRange(days)`: posts `{start_date: null, days}` to `/clear`
(App.jsx lines 66–83). -/
def handleClearRange (days : Nat) : DashboardRequest :=
  .clearPost { start_date := none, days := days }

/-- The dashboard state touched by `handleLlmCommand`. -/
structure DashboardState where
  llmCommand : String
  llmResult : Option String
  error : String
deriving Repr, DecidableEq

/-- JavaScript `String.prototype.trim`: drops leading and trailing whitespace. -/
def jsTrim (s : String) : String :=
  ⟨((s.data.dropWhile Char.isWhitespace).reverse.dropWhile Char.isWhitespace).reverse⟩

/-- `handleLlmCommand` (App.jsx lines 85–101): early-returns when the trimmed
command is empty; otherwise clears `error` and `llmResult`, posts the raw
(untrimmed) command, and on success stores the response and clears the input,
on failure records the error message.  The second component is the request
body sent to the backend, `none` when no request was issued. -/
def handleLlmCommand (st : DashboardState) (backend : String → Except String String) :
    DashboardState × Option String :=
  if jsTrim st.llmCommand = "" then (st, none)
  else
    match backend st.llmCommand with
    | .ok res =>
        ({ st with error := "", llmResult := some res, llmCommand := "" }, some st.llmCommand)
    | .error _ =>
        ({ st with error := "Failed to send LLM command.", llmResult := none },
          some st.llmCommand)

/-! ## Part I.b — RAG chatbot source cleaning (`local-rag-chatbot/frontend/src/App.jsx`) -/

/-- One raw source entry returned by the `/ask` endpoint.  The `meta_*` fields
are the fields of the nested `metadata` object (absent fields are `none`);
JavaScript `undefined`/`null` are both `none`. -/
structure RawSource where
  source : Option String
  chunk_index : Option Int
  snippet : Option String
  meta_source : Option String
  meta_chunk_index : Option Int
  meta_chunkIndex : Option Int
  meta_snippet : Option String
deriving Repr, DecidableEq

/-- JavaScript truthiness of an optional string: `undefined`, `null` and `""`
are falsy. -/
def truthy : Option String → Option String
  | some s => if s = "" then none else some s
  | none => none

/-- `const sourceName = src.source || meta.source` followed by the
`if (!sourceName) continue` check: the entry's source name when truthy
(App.jsx lines 82, 91). -/
def sourceNameOf (r : RawSource) : Option String :=
  match truthy r.source with
  | some s => some s
  | none => truthy r.meta_source

/-- `const chunkIndex = src.chunk_index ?? meta.chunk_index ?? meta.chunkIndex ?? null`:
nullish coalescing, so `0` is kept (App.jsx lines 83–87). -/
def chunkIndexOf (r : RawSource) : Option Int :=
  match r.chunk_index with
  | some i => some i
  | none =>
    match r.meta_chunk_index with
    | some i => some i
    | none => r.meta_chunkIndex

/-- `const snippet = src.snippet || meta.snippet || ""` (App.jsx line 88). -/
def snippetOf (r : RawSource) : String :=
  match truthy r.snippet with
  | some s => s
  | none =>
    match truthy r.meta_snippet with
    | some s => s
    | none => ""

/-- Rendering of `chunkIndex ?? ""` inside the template literal. -/
def chunkIndexStr : Option Int → String
  | some i => toString i
  | none => ""

/-- The dedupe key `${sourceName}::${chunkIndex ?? ""}::${snippet}`
(App.jsx line 94). -/
def keyOf (name : String) (ci : Option Int) (snip : String) : String :=
  name ++ "::" ++ chunkIndexStr ci ++ "::" ++ snip

/-- `cleanedSources.push({...src, source: sourceName, chunk_index: chunkIndex,
snippet})` (App.jsx lines 99–104): the pushed entry, spread keeps `metadata`. -/
def cleanEntry (r : RawSource) (name : String) : RawSource :=
  { r with
    source := some name
    chunk_index := chunkIndexOf r
    snippet := some (snippetOf r) }

/-- The normalized form of one raw entry, `none` when the entry is skipped for
lacking a source name. -/
def normalizeEntry (r : RawSource) : Option RawSource :=
  match sourceNameOf r with
  | some name => some (cleanEntry r name)
  | none => none

/-- The dedupe key of an entry, recomputed from its own fields. -/
def entryKey (r : RawSource) : String :=
  keyOf ((sourceNameOf r).getD "") (chunkIndexOf r) (snippetOf r)

/-- The (source name, chunk index, snippet) triple of an entry. -/
def tripleOf (r : RawSource) : String × Option Int × String :=
  ((sourceNameOf r).getD "", chunkIndexOf r, snippetOf r)

/-- The clean-and-dedupe loop of `handleAsk` (App.jsx lines 75–105), with the
`seen` set carried explicitly. -/
def cleanSourcesAux (seen : List String) : List RawSource → List RawSource
  | [] => []
  | r :: rest =>
    match sourceNameOf r with
    | none => cleanSourcesAux seen rest
    | some name =>
      let k := keyOf name (chunkIndexOf r) (snippetOf r)
      if k ∈ seen then cleanSourcesAux seen rest
      else cleanEntry r name :: cleanSourcesAux (k :: seen) rest

/-- `cleanedSources` as computed in `handleAsk` from the raw `res.data.sources`. -/
def cleanSources (l : List RawSource) : List RawSource :=
  cleanSourcesAux [] l

/-! ## Part II — Personal Scheduler Agent backend core (modelled from the spec)

The FastAPI backend of the Personal Scheduler Agent is not included in the
repository snapshot (only its React dashboard is), so every definition below
is modelled from the specification's wording (§3, §4.1, §4.3–§4.5, §7). -/

/-- Modelled from the spec: `FixedTask` (§3) of the missing scheduler backend —
name (unique key), start_time (time of day, minutes), duration_minutes,
days (weekdays it recurs on, 0–6). -/
structure FixedTask where
  name : String
  start_time : Nat
  duration_minutes : Nat
  days : List Nat
deriving Repr, DecidableEq

/-- Modelled from the spec: `CalendarEvent` (§3) of the missing scheduler
backend — start/end timestamps (split here into a day index and minutes of
day), title, external id, and the agent-created tag used by `clear` (§4.2). -/
structure CalendarEvent where
  date : Nat
  start : Nat
  end_ : Nat
  title : String
  external_id : String
  agent_tag : Bool
deriving Repr, DecidableEq

/-- Modelled from the spec: decision status (§3),
status ∈ \x7bscheduled, scheduled_rescheduled, skipped\x7d. -/
inductive Status where
  | scheduled
  | scheduled_rescheduled
  | skipped
deriving Repr, DecidableEq

/-- Modelled from the spec: `ScheduleDecision` (§3) of the missing scheduler
backend; start/end are `none` when skipped, `reason` is `""` when empty. -/
structure ScheduleDecision where
  task_name : String
  status : Status
  scheduled_start : Option Nat
  scheduled_end : Option Nat
  reason : String
deriving Repr, DecidableEq

/-- Modelled from the spec: `DayPlan` (§3) — a date and its ordered decisions. -/
structure DayPlan where
  date : Nat
  decisions : List ScheduleDecision
deriving Repr, DecidableEq

/-- Weekday of a day index. -/
def weekday (date : Nat) : Nat := date % 7

/-- Modelled from the spec: RoutineStore ordering (§4.1) — start_time
ascending, ties broken by longer duration first. -/
def taskLE (a b : FixedTask) : Bool :=
  a.start_time < b.start_time ||
    (a.start_time == b.start_time && b.duration_minutes ≤ a.duration_minutes)

/-- Insertion step of the routine sort. -/
def insertTask (t : FixedTask) : List FixedTask → List FixedTask
  | [] => [t]
  | u :: us => if taskLE t u then t :: u :: us else u :: insertTask t us

/-- Insertion sort by `taskLE`. -/
def sortTasks : List FixedTask → List FixedTask
  | [] => []
  | t :: ts => insertTask t (sortTasks ts)

/-- Modelled from the spec: `RoutineStore.tasksForWeekday` (§4.1) of the
missing scheduler backend — the tasks recurring on the date's weekday, sorted. -/
def tasksForWeekday (routine : List FixedTask) (date : Nat) : List FixedTask :=
  sortTasks (routine.filter (fun t => weekday date ∈ t.days))

/-- Half-open interval overlap test for `[s1, e1)` and `[s2, e2)`. -/
def overlapsW (s1 e1 s2 e2 : Nat) : Bool :=
  s1 < e2 && s2 < e1

/-- Modelled from the spec: ConflictResolver step 2 (§4.3) — test a window
against (a) the fetched calendar events and (b) the windows already committed
to earlier tasks; returns the conflicting item's name and the end of the
conflicting window.  Committed windows are `(task_name, start, end)`. -/
def findConflictW (events : List CalendarEvent) (committed : List (String × Nat × Nat))
    (s e : Nat) : Option (String × Nat) :=
  match events.find? (fun ev => overlapsW s e ev.start ev.end_) with
  | some ev => some (ev.title, ev.end_)
  | none =>
    match committed.find? (fun w => overlapsW s e w.2.1 w.2.2) with
    | some w => some (w.1, w.2.2)
    | none => none

/-- Modelled from the spec: the reschedule probe (§4.3 step 5) — candidates
advance in 15-minute increments, each re-checked against both overlap
sources, until a free window fits or the end-of-day boundary (minute 1440,
the default) is passed.  Structural fuel; 98 probes always reach the
boundary from any start. -/
def probeAux (events : List CalendarEvent) (committed : List (String × Nat × Nat))
    (dur : Nat) : Nat → Nat → Option Nat
  | 0, _ => none
  | fuel + 1, s =>
    if 1440 < s + dur then none
    else
      match findConflictW events committed s (s + dur) with
      | none => some s
      | some _ => probeAux events committed dur fuel (s + 15)

/-- The reschedule probe from a given start minute. -/
def probe (events : List CalendarEvent) (committed : List (String × Nat × Nat))
    (dur s : Nat) : Option Nat :=
  probeAux events committed dur 98 s

/-- Modelled from the spec: ConflictResolver steps 1–6 for one task (§4.3) —
returns the decision and the updated committed windows.  `createOk` models
whether `createEvent` succeeds for a task (step 6). -/
def resolveTask (events : List CalendarEvent) (committed : List (String × Nat × Nat))
    (allow_reschedule : Bool) (createOk : String → Bool) (t : FixedTask) :
    ScheduleDecision × List (String × Nat × Nat) :=
  let s := t.start_time
  let e := s + t.duration_minutes
  match findConflictW events committed s e with
  | none =>
    if createOk t.name then
      ({ task_name := t.name, status := .scheduled, scheduled_start := some s,
         scheduled_end := some e, reason := "" },
       committed ++ [(t.name, s, e)])
    else
      ({ task_name := t.name, status := .skipped, scheduled_start := none,
         scheduled_end := none, reason := "CalendarUnavailable: createEvent failed" },
       committed)
  | some (cname, cend) =>
    if allow_reschedule then
      match probe events committed t.duration_minutes cend with
      | some ns =>
        if createOk t.name then
          ({ task_name := t.name, status := .scheduled_rescheduled,
             scheduled_start := some ns, scheduled_end := some (ns + t.duration_minutes),
             reason := "rescheduled: conflicts with " ++ cname },
           committed ++ [(t.name, ns, ns + t.duration_minutes)])
        else
          ({ task_name := t.name, status := .skipped, scheduled_start := none,
             scheduled_end := none, reason := "CalendarUnavailable: createEvent failed" },
           committed)
      | none =>
        ({ task_name := t.name, status := .skipped, scheduled_start := none,
           scheduled_end := none, reason := "no free slot" }, committed)
    else
      ({ task_name := t.name, status := .skipped, scheduled_start := none,
         scheduled_end := none, reason := "conflicts with " ++ cname }, committed)

/-- Modelled from the spec: ConflictResolver main loop (§4.3) — processes the
tasks in RoutineStore order, threading the committed windows. -/
def resolveDayAux (events : List CalendarEvent) (allow_reschedule : Bool)
    (createOk : String → Bool) (committed : List (String × Nat × Nat)) :
    List FixedTask → List ScheduleDecision
  | [] => []
  | t :: ts =>
    let r := resolveTask events committed allow_reschedule createOk t
    r.1 :: resolveDayAux events allow_reschedule createOk r.2 ts

/-- Modelled from the spec: ConflictResolver (§4.3) — one date's DayPlan from
its tasks and fetched events. -/
def resolveDay (date : Nat) (tasks : List FixedTask) (events : List CalendarEvent)
    (allow_reschedule : Bool) (createOk : String → Bool) : DayPlan :=
  ⟨date, resolveDayAux events allow_reschedule createOk [] tasks⟩

/-- Modelled from the spec: `ScheduleIntent` (§3). -/
structure ScheduleIntent where
  start_date : Option Nat
  days : Nat
  allow_reschedule : Bool
deriving Repr, DecidableEq

/-- Modelled from the spec: `ClearIntent` (§3). -/
structure ClearIntent where
  start_date : Option Nat
  days : Nat
deriving Repr, DecidableEq

/-- Modelled from the spec: the all-skipped decision used when `fetchEvents`
fails with CalendarUnavailable (§4.4, §7). -/
def skippedDecision (t : FixedTask) : ScheduleDecision :=
  { task_name := t.name, status := .skipped, scheduled_start := none,
    scheduled_end := none, reason := "CalendarUnavailable: could not fetch events" }

/-- Modelled from the spec: the degraded DayPlan for a date whose event fetch
failed (§4.4). -/
def skippedPlan (date : Nat) (tasks : List FixedTask) : DayPlan :=
  ⟨date, tasks.map skippedDecision⟩

/-- Modelled from the spec: `RangeScheduler.schedule` (§4.4) of the missing
scheduler backend — resolves `start_date` (null → today), iterates `days`
consecutive dates, fetching events per date; a fetch failure degrades that
date only. -/
def scheduleRange (routine : List FixedTask)
    (fetch : Nat → Except String (List CalendarEvent))
    (createOk : Nat → String → Bool) (today : Nat) (intent : ScheduleIntent) :
    List DayPlan :=
  let start := intent.start_date.getD today
  (List.range intent.days).map (fun i =>
    let d := start + i
    let tasks := tasksForWeekday routine d
    match fetch d with
    | .ok evs => resolveDay d tasks evs intent.allow_reschedule (createOk d)
    | .error _ => skippedPlan d tasks)

/-- Modelled from the spec: `CalendarGateway.deleteEventsInRange` for a single
date scoped to the agent tag (§4.2) — removes only agent-tagged events dated
`d`, returning the count removed and the remaining events. -/
def deleteEventsOnDate (events : List CalendarEvent) (d : Nat) :
    Nat × List CalendarEvent :=
  ((events.filter (fun e => e.agent_tag && e.date == d)).length,
   events.filter (fun e => !(e.agent_tag && e.date == d)))

/-- Modelled from the spec: the per-date loop of `RangeScheduler.clear` (§4.4)
over an explicit list of dates, summing removed counts. -/
def clearDates (events : List CalendarEvent) : List Nat → Nat × List CalendarEvent
  | [] => (0, events)
  | d :: ds =>
    let r := deleteEventsOnDate events d
    let rest := clearDates r.2 ds
    (r.1 + rest.1, rest.2)

/-- Modelled from the spec: `RangeScheduler.clear` (§4.4) of the missing
scheduler backend — for each date in range, deletes the agent-tagged events,
returning the total removed and the calendar left behind. -/
def clearRange (events : List CalendarEvent) (today : Nat) (intent : ClearIntent) :
    Nat × List CalendarEvent :=
  let start := intent.start_date.getD today
  clearDates events ((List.range intent.days).map (fun i => start + i))

/-- Modelled from the spec: the already-resolved intent object consumed by
CommandInterpreter (§4.5) — `\x7baction, days, allow_reschedule\x7d` plus the
nullable start date. -/
structure RawIntent where
  action : String
  days : Int
  allow_reschedule : Bool
  start_date : Option Nat
deriving Repr, DecidableEq

/-- Modelled from the spec: CommandInterpreter output (§4.5) — the dispatched
RangeScheduler result returned unchanged, plus the resolved intent. -/
inductive CommandOutput where
  | scheduled (plans : List DayPlan) (intent : ScheduleIntent)
  | cleared (removed : Nat) (intent : ClearIntent)
deriving Repr, DecidableEq

/-- Modelled from the spec: `CommandInterpreter` (§4.5) of the missing
scheduler backend — validates `days` (positive, ≤ 365) and the action, fails
with InvalidCommand otherwise, and on success dispatches to RangeScheduler.
The second component is the calendar state after the command (unchanged when
the command is rejected). -/
def interpretCommand (routine : List FixedTask)
    (fetch : Nat → Except String (List CalendarEvent))
    (createOk : Nat → String → Bool) (events : List CalendarEvent) (today : Nat)
    (intent : RawIntent) : Except String CommandOutput × List CalendarEvent :=
  if intent.days ≤ 0 || 365 < intent.days then (.error "InvalidCommand", events)
  else if intent.action = "schedule" then
    let si : ScheduleIntent :=
      ⟨intent.start_date, intent.days.toNat, intent.allow_reschedule⟩
    (.ok (.scheduled (scheduleRange routine fetch createOk today si) si), events)
  else if intent.action = "clear" then
    let ci : ClearIntent := ⟨intent.start_date, intent.days.toNat⟩
    let r := clearRange events today ci
    (.ok (.cleared r.1 ci), r.2)
  else (.error "InvalidCommand", events)

/-- The committed-style windows of the non-skipped decisions of a list. -/
def windowsOf (ds : List ScheduleDecision) : List (Nat × Nat) :=
  ds.filterMap (fun d =>
    match d.status, d.scheduled_start, d.scheduled_end with
    | .skipped, _, _ => none
    | _, some s, some e => some (s, e)
    | _, _, _ => none)

/-- Two windows do not overlap. -/
def noOv (a b : Nat × Nat) : Prop :=
  ¬(a.1 < b.2 ∧ b.1 < a.2)

/-! ## Theorems -/

/-- C8: for every `days` argument, the dashboard's `handleScheduleRange` posts
the schedule intent `\x7bstart_date: null, days, allow_reschedule: true\x7d` and
`handleClearRange` posts the clear intent `\x7bstart_date: null, days\x7d`, so
dashboard-triggered schedules always permit rescheduling and always start
from today, for every range length. -/
theorem dashboard_payloads (days : Nat) :
    handleScheduleRange days = .schedulePost ⟨none, days, true⟩ ∧
    handleClearRange days = .clearPost ⟨none, days⟩ ∧
    (∀ p, handleScheduleRange days = .schedulePost p →
      p.allow_reschedule = true ∧ p.start_date = none ∧ p.days = days) ∧
    (∀ p, handleClearRange days = .clearPost p →
      p.start_date = none ∧ p.days = days) := by
  refine ⟨rfl, rfl, ?_, ?_⟩ <;> intro p h
  · simp only [handleScheduleRange, DashboardRequest.schedulePost.injEq] at h
    rw [← h]
    exact ⟨rfl, rfl, rfl⟩
  · simp only [handleClearRange, DashboardRequest.clearPost.injEq] at h
    rw [← h]
    exact ⟨rfl, rfl⟩

/-- C8 witness at `days = 7`. -/
theorem dashboard_payloads_witness :
    handleScheduleRange 7 = .schedulePost ⟨none, 7, true⟩ ∧
    handleClearRange 7 = .clearPost ⟨none, 7⟩ :=
  ⟨(dashboard_payloads 7).1, (dashboard_payloads 7).2.1⟩

/-- C9: when the dashboard command is empty or whitespace-only,
`handleLlmCommand` issues no backend request and leaves the state
(`llmCommand`, `llmResult`, `error`) unchanged; a request is issued exactly
when the trimmed command is non-empty, and it carries the raw command. -/
theorem handleLlmCommand_blank_guard (st : DashboardState)
    (backend : String → Except String String) :
    (jsTrim st.llmCommand = "" → handleLlmCommand st backend = (st, none)) ∧
    ((handleLlmCommand st backend).2 = none ∨
      (handleLlmCommand st backend).2 = some st.llmCommand) ∧
    ((handleLlmCommand st backend).2.isSome = true ↔ jsTrim st.llmCommand ≠ "") := by
  unfold handleLlmCommand
  by_cases h : jsTrim st.llmCommand = ""
  · simp [h]
  · simp only [h, ite_false, if_neg]
    cases backend st.llmCommand <;> simp [h]

/-- C9 witness: a whitespace-only command issues no request and keeps the
state. -/
theorem handleLlmCommand_blank_guard_witness :
    handleLlmCommand ⟨"  ", some "x", "err"⟩ (fun s => .ok s) =
      (⟨"  ", some "x", "err"⟩, none) :=
  (handleLlmCommand_blank_guard ⟨"  ", some "x", "err"⟩ (fun s => .ok s)).1 (by decide)

/-- Splitting a filtered length by a second predicate. -/
theorem length_filter_split (p q : α → Bool) (l : List α) :
    (l.filter p).length =
      (l.filter (fun a => p a && q a)).length +
        (l.filter (fun a => p a && !q a)).length := by
  induction l with
  | nil => rfl
  | cons a l ih =>
    by_cases hp : p a <;> by_cases hq : q a <;>
      simp [List.filter_cons, hp, hq, ih] <;> omega

/-- Composing two filters. -/
theorem filter_filter_bool (p q : α → Bool) (l : List α) :
    (l.filter p).filter q = l.filter (fun a => p a && q a) := by
  induction l with
  | nil => rfl
  | cons a l ih =>
    by_cases hp : p a <;> by_cases hq : q a <;>
      simp [List.filter_cons, hp, hq, ih]

/-- Membership in the consecutive date list of a range. -/
theorem mem_dateRange (start days x : Nat) :
    x ∈ (List.range days).map (fun i => start + i) ↔
      start ≤ x ∧ x < start + days := by
  simp only [List.mem_map, List.mem_range]
  constructor
  · rintro ⟨i, hi, rfl⟩
    omega
  · rintro ⟨h1, h2⟩
    exact ⟨x - start, by omega, by omega⟩

/-- `clearDates` removes exactly the agent-tagged events dated in the list and
counts them. -/
theorem clearDates_eq (ds : List Nat) : ∀ events : List CalendarEvent,
    clearDates events ds =
      ((events.filter (fun e => e.agent_tag && decide (e.date ∈ ds))).length,
       events.filter (fun e => !(e.agent_tag && decide (e.date ∈ ds)))) := by
  induction ds with
  | nil => intro events; simp [clearDates]
  | cons d ds ih =>
    intro events
    have hstep : clearDates events (d :: ds) =
        ((events.filter (fun e => e.agent_tag && e.date == d)).length +
          (clearDates (events.filter (fun e => !(e.agent_tag && e.date == d))) ds).1,
         (clearDates (events.filter (fun e => !(e.agent_tag && e.date == d))) ds).2) := rfl
    rw [hstep, ih]
    simp only [Prod.mk.injEq]
    have hff := filter_filter_bool
      (fun e : CalendarEvent => !(e.agent_tag && e.date == d))
      (fun e : CalendarEvent => !(e.agent_tag && decide (e.date ∈ ds)))
      events
    constructor
    · have hsplit := length_filter_split
        (fun e : CalendarEvent => e.agent_tag && decide (e.date ∈ d :: ds))
        (fun e : CalendarEvent => e.date == d) events
      have hff2 := filter_filter_bool
        (fun e : CalendarEvent => !(e.agent_tag && e.date == d))
        (fun e : CalendarEvent => e.agent_tag && decide (e.date ∈ ds))
        events
      rw [hff2]
      have e1 : events.filter
          (fun e => (e.agent_tag && decide (e.date ∈ d :: ds)) && e.date == d) =
          events.filter (fun e => e.agent_tag && e.date == d) := by
        apply List.filter_congr
        intro a _
        by_cases ht : a.agent_tag <;> by_cases hd : a.date = d <;>
          simp [ht, hd, List.mem_cons]
      have e2 : events.filter
          (fun e => (e.agent_tag && decide (e.date ∈ d :: ds)) && !(e.date == d)) =
          events.filter
            (fun e => !(e.agent_tag && e.date == d) && (e.agent_tag && decide (e.date ∈ ds))) := by
        apply List.filter_congr
        intro a _
        by_cases ht : a.agent_tag <;> by_cases hd : a.date = d <;>
          by_cases hm : a.date ∈ ds <;> simp [ht, hd, hm, List.mem_cons]
      rw [e1, e2] at hsplit
      omega
    · rw [hff]
      apply List.filter_congr
      intro a _
      by_cases ht : a.agent_tag <;> by_cases hd : a.date = d <;>
        by_cases hm : a.date ∈ ds <;> simp [ht, hd, hm, List.mem_cons]

/-- C6: `clear` removes exactly the agent-tagged calendar events dated inside
the requested range and returns their count; every untagged (externally
created) event survives, and nothing new appears. -/
theorem clearRange_only_agent_events (events : List CalendarEvent) (today : Nat)
    (intent : ClearIntent) :
    (clearRange events today intent).2 =
      events.filter (fun e => !(e.agent_tag &&
        decide (intent.start_date.getD today ≤ e.date ∧
          e.date < intent.start_date.getD today + intent.days))) ∧
    (clearRange events today intent).1 =
      (events.filter (fun e => e.agent_tag &&
        decide (intent.start_date.getD today ≤ e.date ∧
          e.date < intent.start_date.getD today + intent.days))).length ∧
    (∀ e ∈ events, e.agent_tag = false → e ∈ (clearRange events today intent).2) ∧
    (∀ e ∈ (clearRange events today intent).2, e ∈ events) := by
  have hrw : clearRange events today intent =
      clearDates events ((List.range intent.days).map
        (fun i => intent.start_date.getD today + i)) := rfl
  have hpt : ∀ a : CalendarEvent,
      (decide (a.date ∈ (List.range intent.days).map
        (fun i => intent.start_date.getD today + i)) : Bool) =
      decide (intent.start_date.getD today ≤ a.date ∧
        a.date < intent.start_date.getD today + intent.days) := by
    intro a
    rw [decide_eq_decide]
    exact mem_dateRange _ _ _
  have h2 : (clearRange events today intent).2 =
      events.filter (fun e => !(e.agent_tag &&
        decide (intent.start_date.getD today ≤ e.date ∧
          e.date < intent.start_date.getD today + intent.days))) := by
    rw [hrw, clearDates_eq]
    apply List.filter_congr
    intro a _
    rw [hpt a]
  have h1 : (clearRange events today intent).1 =
      (events.filter (fun e => e.agent_tag &&
        decide (intent.start_date.getD today ≤ e.date ∧
          e.date < intent.start_date.getD today + intent.days))).length := by
    rw [hrw, clearDates_eq]
    show (events.filter (fun e => e.agent_tag &&
      decide (e.date ∈ (List.range intent.days).map
        (fun i => intent.start_date.getD today + i)))).length = _
    congr 1
    apply List.filter_congr
    intro a _
    rw [hpt a]
  refine ⟨h2, h1, ?_, ?_⟩
  · intro e he htag
    rw [h2]
    exact List.mem_filter.2 ⟨he, by simp [htag]⟩
  · intro e he
    rw [h2] at he
    exact (List.mem_filter.1 he).1

/-- C6 witness: a 3-day clear starting at date 1 removes the one agent-tagged
event dated 2 and keeps the untagged event dated 2. -/
theorem clearRange_only_agent_events_witness :
    (clearRange [⟨2, 0, 60, "t", "i", true⟩, ⟨2, 0, 60, "u", "j", false⟩] 0
      ⟨some 1, 3⟩).2 = [⟨2, 0, 60, "u", "j", false⟩] ∧
    (clearRange [⟨2, 0, 60, "t", "i", true⟩, ⟨2, 0, 60, "u", "j", false⟩] 0
      ⟨some 1, 3⟩).1 = 1 :=
  ⟨((clearRange_only_agent_events
      [⟨2, 0, 60, "t", "i", true⟩, ⟨2, 0, 60, "u", "j", false⟩] 0 ⟨some 1, 3⟩).1).trans
    (by decide),
   ((clearRange_only_agent_events
      [⟨2, 0, 60, "t", "i", true⟩, ⟨2, 0, 60, "u", "j", false⟩] 0 ⟨some 1, 3⟩).2.1).trans
    (by decide)⟩

/-- C7: `interpretCommand` rejects any intent whose `days` is non-positive or
exceeds 365 or whose action is unrecognized, with InvalidCommand and the
calendar untouched; a valid intent dispatches to RangeScheduler and returns
its result unchanged together with the resolved intent. -/
theorem interpretCommand_validates (routine : List FixedTask)
    (fetch : Nat → Except String (List CalendarEvent))
    (createOk : Nat → String → Bool) (events : List CalendarEvent) (today : Nat)
    (intent : RawIntent) :
    ((intent.days ≤ 0 ∨ 365 < intent.days ∨
        (intent.action ≠ "schedule" ∧ intent.action ≠ "clear")) →
      interpretCommand routine fetch createOk events today intent =
        (.error "InvalidCommand", events)) ∧
    ((0 < intent.days ∧ intent.days ≤ 365 ∧ intent.action = "schedule") →
      interpretCommand routine fetch createOk events today intent =
        (.ok (.scheduled
          (scheduleRange routine fetch createOk today
            ⟨intent.start_date, intent.days.toNat, intent.allow_reschedule⟩)
          ⟨intent.start_date, intent.days.toNat, intent.allow_reschedule⟩), events)) ∧
    ((0 < intent.days ∧ intent.days ≤ 365 ∧ intent.action = "clear") →
      interpretCommand routine fetch createOk events today intent =
        (.ok (.cleared
          (clearRange events today ⟨intent.start_date, intent.days.toNat⟩).1
          ⟨intent.start_date, intent.days.toNat⟩),
         (clearRange events today ⟨intent.start_date, intent.days.toNat⟩).2)) := by
  refine ⟨?_, ?_, ?_⟩
  · intro h
    rcases h with h | h | ⟨h1, h2⟩
    · simp [interpretCommand, h]
    · simp [interpretCommand, h]
    · unfold interpretCommand
      by_cases hd : (intent.days ≤ 0 || decide (365 < intent.days)) = true
      · simp [hd]
      · simp [hd, h1, h2]
  · rintro ⟨h1, h2, h3⟩
    have hc1 : ¬(intent.days ≤ 0) := by omega
    have hc2 : ¬(365 < intent.days) := by omega
    simp [interpretCommand, hc1, hc2, h3]
  · rintro ⟨h1, h2, h3⟩
    have hc1 : ¬(intent.days ≤ 0) := by omega
    have hc2 : ¬(365 < intent.days) := by omega
    simp [interpretCommand, hc1, hc2, h3]

/-- C7 witness: `days = 400` is rejected with the calendar unchanged. -/
theorem interpretCommand_validates_witness :
    interpretCommand [] (fun _ => .ok []) (fun _ _ => true)
      [⟨0, 0, 30, "t", "i", true⟩] 0 ⟨"schedule", 400, true, none⟩ =
      (.error "InvalidCommand", [⟨0, 0, 30, "t", "i", true⟩]) :=
  (interpretCommand_validates [] (fun _ => .ok []) (fun _ _ => true)
      [⟨0, 0, 30, "t", "i", true⟩] 0 ⟨"schedule", 400, true, none⟩).1
    (Or.inr (Or.inl (by decide)))

/-- A successful probe lands on a 15-minute increment from its start, inside
the day boundary, on a conflict-free window, and every earlier increment was
in conflict. -/
theorem probeAux_some_char (ev : List CalendarEvent)
    (cm : List (String × Nat × Nat)) (dur : Nat) :
    ∀ f s r, probeAux ev cm dur f s = some r →
      ∃ k, r = s + 15 * k ∧ r + dur ≤ 1440 ∧
        findConflictW ev cm r (r + dur) = none ∧
        ∀ j < k, findConflictW ev cm (s + 15 * j) (s + 15 * j + dur) ≠ none := by
  intro f
  induction f with
  | zero =>
    intro s r h
    simp [probeAux] at h
  | succ f ih =>
    intro s r h
    unfold probeAux at h
    by_cases hb : 1440 < s + dur
    · simp [hb] at h
    · rw [if_neg hb] at h
      cases hc : findConflictW ev cm s (s + dur) with
      | none =>
        rw [hc] at h
        obtain rfl : s = r := by simpa using h
        refine ⟨0, by omega, by omega, by simpa using hc, ?_⟩
        intro j hj
        omega
      | some c =>
        rw [hc] at h
        obtain ⟨k, hk1, hk2, hk3, hk4⟩ := ih (s + 15) r h
        refine ⟨k + 1, by omega, hk2, hk3, ?_⟩
        intro j hj
        cases j with
        | zero =>
          simp only [Nat.mul_zero, Nat.add_zero]
          rw [hc]
          simp
        | succ j' =>
          have harg : s + 15 * (j' + 1) = s + 15 + 15 * j' := by ring
          rw [harg]
          exact hk4 j' (by omega)

/-- A failed probe means every in-bounds 15-minute increment was in conflict,
provided the fuel covers every in-bounds increment. -/
theorem probeAux_none_char (ev : List CalendarEvent)
    (cm : List (String × Nat × Nat)) (dur : Nat) :
    ∀ f s, (∀ k, f ≤ k → ¬(s + 15 * k + dur ≤ 1440)) →
      probeAux ev cm dur f s = none →
      ∀ k, s + 15 * k + dur ≤ 1440 →
        findConflictW ev cm (s + 15 * k) (s + 15 * k + dur) ≠ none := by
  intro f
  induction f with
  | zero =>
    intro s hbig _ k hk
    exact absurd hk (hbig k (Nat.zero_le k))
  | succ f ih =>
    intro s hbig h k hk
    unfold probeAux at h
    by_cases hb : 1440 < s + dur
    · exact absurd hk (by omega)
    · rw [if_neg hb] at h
      cases hc : findConflictW ev cm s (s + dur) with
      | none =>
        rw [hc] at h
        simp at h
      | some c =>
        rw [hc] at h
        cases k with
        | zero =>
          simp only [Nat.mul_zero, Nat.add_zero]
          rw [hc]
          simp
        | succ k' =>
          have hbig2 : ∀ m, f ≤ m → ¬(s + 15 + 15 * m + dur ≤ 1440) := by
            intro m hm
            have := hbig (m + 1) (by omega)
            omega
          have h2 := ih (s + 15) hbig2 h k' (by omega)
          have harg : s + 15 * (k' + 1) = s + 15 + 15 * k' := by ring
          rw [harg]
          exact h2

/-- A successful probe result is conflict-free and inside the day. -/
theorem probe_some_free (ev : List CalendarEvent)
    (cm : List (String × Nat × Nat)) (dur s r : Nat)
    (h : probe ev cm dur s = some r) :
    findConflictW ev cm r (r + dur) = none ∧ r + dur ≤ 1440 := by
  obtain ⟨k, _, hk2, hk3, _⟩ := probeAux_some_char ev cm dur 98 s r h
  exact ⟨hk3, hk2⟩

/-- C3: rescheduling probes forward in 15-minute increments from the end of
the conflicting window until a free window fits or the day boundary is
reached — a found slot is the first free increment and all earlier increments
conflicted, a failed probe means no in-bounds increment was free — and in
Scenario A (Workout fixed 09:00–09:30, event 09:15–09:45, reschedule
allowed) the decision is scheduled_rescheduled with window 09:45–10:15
(minutes 585–615). -/
theorem probe_increments_and_scenarioA :
    (∀ (ev : List CalendarEvent) (cm : List (String × Nat × Nat)) (dur s r : Nat),
      probe ev cm dur s = some r →
        ∃ k, r = s + 15 * k ∧ r + dur ≤ 1440 ∧
          findConflictW ev cm r (r + dur) = none ∧
          ∀ j < k, findConflictW ev cm (s + 15 * j) (s + 15 * j + dur) ≠ none) ∧
    (∀ (ev : List CalendarEvent) (cm : List (String × Nat × Nat)) (dur s : Nat),
      probe ev cm dur s = none →
        ∀ k, s + 15 * k + dur ≤ 1440 →
          findConflictW ev cm (s + 15 * k) (s + 15 * k + dur) ≠ none) ∧
    resolveDay 0 [⟨"Workout", 540, 30, [0]⟩]
        [⟨0, 555, 585, "Team Sync", "e1", false⟩] true (fun _ => true) =
      ⟨0, [⟨"Workout", .scheduled_rescheduled, some 585, some 615,
        "rescheduled: conflicts with Team Sync"⟩]⟩ := by
  refine ⟨?_, ?_, by decide⟩
  · intro ev cm dur s r h
    exact probeAux_some_char ev cm dur 98 s r h
  · intro ev cm dur s h
    refine probeAux_none_char ev cm dur 98 s ?_ h
    intro k hk
    omega

/-- C3 witness: the Scenario A computation. -/
theorem probe_increments_and_scenarioA_witness :
    resolveDay 0 [⟨"Workout", 540, 30, [0]⟩]
        [⟨0, 555, 585, "Team Sync", "e1", false⟩] true (fun _ => true) =
      ⟨0, [⟨"Workout", .scheduled_rescheduled, some 585, some 615,
        "rescheduled: conflicts with Team Sync"⟩]⟩ :=
  probe_increments_and_scenarioA.2.2

/-- C4: when a task's native window conflicts and rescheduling is not allowed,
the resolver produces a skipped decision whose non-empty reason names the
conflicting calendar event or task, and commits nothing. -/
theorem resolveTask_no_reschedule_skips (ev : List CalendarEvent)
    (cm : List (String × Nat × Nat)) (createOk : String → Bool) (t : FixedTask)
    (cname : String) (cend : Nat)
    (h : findConflictW ev cm t.start_time (t.start_time + t.duration_minutes) =
      some (cname, cend)) :
    (resolveTask ev cm false createOk t).1.status = .skipped ∧
    (resolveTask ev cm false createOk t).1.reason = "conflicts with " ++ cname ∧
    (resolveTask ev cm false createOk t).1.reason ≠ "" ∧
    ((∃ x ∈ ev, x.title = cname) ∨ (∃ w ∈ cm, w.1 = cname)) ∧
    (resolveTask ev cm false createOk t).2 = cm := by
  have hres : resolveTask ev cm false createOk t =
      ({ task_name := t.name, status := .skipped, scheduled_start := none,
         scheduled_end := none, reason := "conflicts with " ++ cname }, cm) := by
    unfold resolveTask
    simp only [h]
    rfl
  have hne : "conflicts with " ++ cname ≠ "" := by
    intro hc
    have hlen : ("conflicts with " ++ cname).length = 0 := by rw [hc]; rfl
    rw [String.length_append] at hlen
    have h15 : ("conflicts with ").length = 15 := rfl
    omega
  have hsrc : (∃ x ∈ ev, x.title = cname) ∨ (∃ w ∈ cm, w.1 = cname) := by
    unfold findConflictW at h
    cases hf1 : ev.find? (fun x => overlapsW t.start_time
        (t.start_time + t.duration_minutes) x.start x.end_) with
    | some x =>
      rw [hf1] at h
      simp only [Option.some.injEq, Prod.mk.injEq] at h
      exact Or.inl ⟨x, List.mem_of_find?_eq_some hf1, h.1⟩
    | none =>
      rw [hf1] at h
      cases hf2 : cm.find? (fun w => overlapsW t.start_time
          (t.start_time + t.duration_minutes) w.2.1 w.2.2) with
      | some w =>
        rw [hf2] at h
        simp only [Option.some.injEq, Prod.mk.injEq] at h
        exact Or.inr ⟨w, List.mem_of_find?_eq_some hf2, h.1⟩
      | none =>
        rw [hf2] at h
        exact absurd h (by simp)
  rw [hres]
  exact ⟨rfl, rfl, hne, hsrc, rfl⟩

/-- C4 witness: Scenario B — the Workout/Team-Sync conflict without
rescheduling yields a skipped decision naming the event. -/
theorem resolveTask_no_reschedule_skips_witness :
    (resolveTask [⟨0, 555, 585, "Team Sync", "e1", false⟩] [] false (fun _ => true)
      ⟨"Workout", 540, 30, [0]⟩).1.status = .skipped ∧
    (resolveTask [⟨0, 555, 585, "Team Sync", "e1", false⟩] [] false (fun _ => true)
      ⟨"Workout", 540, 30, [0]⟩).1.reason = "conflicts with " ++ "Team Sync" ∧
    (resolveTask [⟨0, 555, 585, "Team Sync", "e1", false⟩] [] false (fun _ => true)
      ⟨"Workout", 540, 30, [0]⟩).1.reason ≠ "" ∧
    ((∃ x ∈ [(⟨0, 555, 585, "Team Sync", "e1", false⟩ : CalendarEvent)], x.title = "Team Sync") ∨
      (∃ w ∈ ([] : List (String × Nat × Nat)), w.1 = "Team Sync")) ∧
    (resolveTask [⟨0, 555, 585, "Team Sync", "e1", false⟩] [] false (fun _ => true)
      ⟨"Workout", 540, 30, [0]⟩).2 = [] :=
  resolveTask_no_reschedule_skips [⟨0, 555, 585, "Team Sync", "e1", false⟩] []
    (fun _ => true) ⟨"Workout", 540, 30, [0]⟩ "Team Sync" 585 (by decide)

/-- Inserting into the routine sort permutes. -/
theorem insertTask_perm (t : FixedTask) (l : List FixedTask) :
    (insertTask t l).Perm (t :: l) := by
  induction l with
  | nil => exact List.Perm.refl _
  | cons u us ih =>
    unfold insertTask
    by_cases h : taskLE t u
    · rw [if_pos h]
    · rw [if_neg h]
      exact (ih.cons u).trans (List.Perm.swap t u us)

/-- The routine sort is a permutation. -/
theorem sortTasks_perm (l : List FixedTask) : (sortTasks l).Perm l := by
  induction l with
  | nil => exact List.Perm.refl _
  | cons t ts ih => exact (insertTask_perm t (sortTasks ts)).trans (ih.cons t)

/-- The tasks for a weekday are exactly (a permutation of) the applicable
routine entries. -/
theorem tasksForWeekday_perm (routine : List FixedTask) (date : Nat) :
    (tasksForWeekday routine date).Perm
      (routine.filter (fun t => weekday date ∈ t.days)) :=
  sortTasks_perm _

/-- Every resolver step keeps the task's name on its decision. -/
theorem resolveTask_fst_name (ev : List CalendarEvent)
    (cm : List (String × Nat × Nat)) (allow : Bool) (createOk : String → Bool)
    (t : FixedTask) :
    (resolveTask ev cm allow createOk t).1.task_name = t.name := by
  unfold resolveTask
  dsimp only
  repeat' split
  all_goals rfl

/-- The resolver emits decisions named after the tasks, in order. -/
theorem resolveDayAux_map_name (ev : List CalendarEvent) (allow : Bool)
    (createOk : String → Bool) :
    ∀ (ts : List FixedTask) (cm : List (String × Nat × Nat)),
      (resolveDayAux ev allow createOk cm ts).map ScheduleDecision.task_name =
        ts.map FixedTask.name := by
  intro ts
  induction ts with
  | nil => intro cm; rfl
  | cons t ts ih =>
    intro cm
    simp only [resolveDayAux, List.map_cons]
    rw [resolveTask_fst_name, ih]

/-- C1: every DayPlan produced for a requested range carries exactly one
decision per FixedTask applicable to that date's weekday — named after the
tasks in RoutineStore order — and no other decisions; its decision count
equals the number of applicable tasks. -/
theorem scheduleRange_decisions_complete (routine : List FixedTask)
    (fetch : Nat → Except String (List CalendarEvent))
    (createOk : Nat → String → Bool) (today : Nat) (intent : ScheduleIntent)
    (plan : DayPlan) (h : plan ∈ scheduleRange routine fetch createOk today intent) :
    plan.decisions.map ScheduleDecision.task_name =
      (tasksForWeekday routine plan.date).map FixedTask.name ∧
    plan.decisions.length =
      (routine.filter (fun t => weekday plan.date ∈ t.days)).length ∧
    (plan.decisions.map ScheduleDecision.task_name).Perm
      ((routine.filter (fun t => weekday plan.date ∈ t.days)).map FixedTask.name) := by
  unfold scheduleRange at h
  obtain ⟨i, hi, rfl⟩ := List.mem_map.1 h
  dsimp only
  cases hf : fetch (intent.start_date.getD today + i) with
  | ok evs =>
    dsimp only [resolveDay]
    have hmap := resolveDayAux_map_name evs intent.allow_reschedule
      (createOk (intent.start_date.getD today + i))
      (tasksForWeekday routine (intent.start_date.getD today + i)) []
    refine ⟨hmap, ?_, ?_⟩
    · have h1 := congrArg List.length hmap
      simp only [List.length_map] at h1
      rw [h1, (tasksForWeekday_perm routine _).length_eq]
    · rw [hmap]
      exact (tasksForWeekday_perm routine _).map FixedTask.name
  | error msg =>
    dsimp only [skippedPlan]
    have hmap : (List.map skippedDecision
        (tasksForWeekday routine (intent.start_date.getD today + i))).map
          ScheduleDecision.task_name =
        (tasksForWeekday routine (intent.start_date.getD today + i)).map
          FixedTask.name := by
      rw [List.map_map]
      rfl
    refine ⟨hmap, ?_, ?_⟩
    · have h1 := congrArg List.length hmap
      simp only [List.length_map] at h1
      simp only [List.length_map]
      rw [(tasksForWeekday_perm routine _).length_eq]
    · rw [hmap]
      exact (tasksForWeekday_perm routine _).map FixedTask.name

/-- C1 witness: a one-day schedule of a single everyday task. -/
theorem scheduleRange_decisions_complete_witness :
    (resolveDay 0 (tasksForWeekday [⟨"W", 540, 30, [0, 1, 2, 3, 4, 5, 6]⟩] 0) []
        true (fun _ => true)) ∈
      scheduleRange [⟨"W", 540, 30, [0, 1, 2, 3, 4, 5, 6]⟩] (fun _ => .ok [])
        (fun _ _ => true) 0 ⟨none, 1, true⟩ ∧
    ((resolveDay 0 (tasksForWeekday [⟨"W", 540, 30, [0, 1, 2, 3, 4, 5, 6]⟩] 0) []
        true (fun _ => true)).decisions.map ScheduleDecision.task_name =
      (tasksForWeekday [⟨"W", 540, 30, [0, 1, 2, 3, 4, 5, 6]⟩]
        (resolveDay 0 (tasksForWeekday [⟨"W", 540, 30, [0, 1, 2, 3, 4, 5, 6]⟩] 0) []
          true (fun _ => true)).date).map FixedTask.name) :=
  ⟨by decide,
   (scheduleRange_decisions_complete [⟨"W", 540, 30, [0, 1, 2, 3, 4, 5, 6]⟩]
     (fun _ => .ok []) (fun _ _ => true) 0 ⟨none, 1, true⟩ _ (by decide)).1⟩

/-- C5: a CalendarUnavailable fetch failure for one date degrades only that
date's DayPlan — all decisions skipped, reasons carrying CalendarUnavailable —
while the scheduler still produces one plan per requested date, in order,
for the whole range. -/
theorem scheduleRange_degrades_unavailable_date (routine : List FixedTask)
    (fetch : Nat → Except String (List CalendarEvent))
    (createOk : Nat → String → Bool) (today : Nat) (intent : ScheduleIntent) :
    (scheduleRange routine fetch createOk today intent).length = intent.days ∧
    (∀ i (hi : i < (scheduleRange routine fetch createOk today intent).length),
      ((scheduleRange routine fetch createOk today intent).get ⟨i, hi⟩).date =
        intent.start_date.getD today + i) ∧
    (∀ plan ∈ scheduleRange routine fetch createOk today intent, ∀ msg,
      fetch plan.date = .error msg →
        plan.decisions = (tasksForWeekday routine plan.date).map skippedDecision ∧
        ∀ d ∈ plan.decisions, d.status = .skipped ∧
          "CalendarUnavailable".data <+: d.reason.data) := by
  refine ⟨?_, ?_, ?_⟩
  · simp [scheduleRange]
  · intro i hi
    simp only [scheduleRange, List.get_eq_getElem, List.getElem_map,
      List.getElem_range]
    split
    · rfl
    · rfl
  · intro plan hmem msg hferr
    unfold scheduleRange at hmem
    obtain ⟨i, hi, rfl⟩ := List.mem_map.1 hmem
    dsimp only at hferr ⊢
    cases hf : fetch (intent.start_date.getD today + i) with
    | ok evs =>
      rw [hf] at hferr
      have hdate : (resolveDay (intent.start_date.getD today + i)
          (tasksForWeekday routine (intent.start_date.getD today + i)) evs
          intent.allow_reschedule (createOk (intent.start_date.getD today + i))).date =
          intent.start_date.getD today + i := rfl
      rw [hdate, hf] at hferr
      exact absurd hferr (by simp)
    | error m2 =>
      refine ⟨rfl, ?_⟩
      intro d hd
      dsimp only [skippedPlan] at hd
      obtain ⟨t, ht, rfl⟩ := List.mem_map.1 hd
      refine ⟨rfl, ?_⟩
      show "CalendarUnavailable".data <+:
        ("CalendarUnavailable: could not fetch events").data
      decide

/-- C5 witness: a two-day range where day 1's fetch fails still yields two
plans, and day 1 is all-skipped with a CalendarUnavailable reason. -/
theorem scheduleRange_degrades_unavailable_date_witness :
    (skippedPlan 1 (tasksForWeekday [⟨"W", 540, 30, [0, 1, 2, 3, 4, 5, 6]⟩] 1)) ∈
      scheduleRange [⟨"W", 540, 30, [0, 1, 2, 3, 4, 5, 6]⟩]
        (fun d => if d = 1 then .error "down" else .ok [])
        (fun _ _ => true) 0 ⟨none, 2, true⟩ ∧
    ((skippedPlan 1 (tasksForWeekday [⟨"W", 540, 30, [0, 1, 2, 3, 4, 5, 6]⟩] 1)).decisions =
      (tasksForWeekday [⟨"W", 540, 30, [0, 1, 2, 3, 4, 5, 6]⟩]
        (skippedPlan 1 (tasksForWeekday [⟨"W", 540, 30, [0, 1, 2, 3, 4, 5, 6]⟩] 1)).date).map
          skippedDecision ∧
    ∀ d ∈ (skippedPlan 1 (tasksForWeekday [⟨"W", 540, 30, [0, 1, 2, 3, 4, 5, 6]⟩] 1)).decisions,
      d.status = .skipped ∧ "CalendarUnavailable".data <+: d.reason.data) :=
  ⟨by decide,
   (scheduleRange_degrades_unavailable_date [⟨"W", 540, 30, [0, 1, 2, 3, 4, 5, 6]⟩]
      (fun d => if d = 1 then .error "down" else .ok [])
      (fun _ _ => true) 0 ⟨none, 2, true⟩).2.2 _ (by decide) "down" rfl⟩

/-- No conflict found means the window is clear of every event and every
committed window. -/
theorem findConflictW_none_iff (ev : List CalendarEvent)
    (cm : List (String × Nat × Nat)) (s e : Nat) :
    findConflictW ev cm s e = none ↔
      (∀ x ∈ ev, overlapsW s e x.start x.end_ = false) ∧
      (∀ w ∈ cm, overlapsW s e w.2.1 w.2.2 = false) := by
  unfold findConflictW
  cases h1 : ev.find? (fun x => overlapsW s e x.start x.end_) with
  | some x =>
    simp only
    constructor
    · intro hcontra
      exact absurd hcontra (by simp)
    · rintro ⟨ha, _⟩
      have hpx := List.find?_some h1
      rw [ha x (List.mem_of_find?_eq_some h1)] at hpx
      exact absurd hpx (by simp)
  | none =>
    cases h2 : cm.find? (fun w => overlapsW s e w.2.1 w.2.2) with
    | some w =>
      simp only
      constructor
      · intro hcontra
        exact absurd hcontra (by simp)
      · rintro ⟨_, hb⟩
        have hpw := List.find?_some h2
        rw [hb w (List.mem_of_find?_eq_some h2)] at hpw
        exact absurd hpw (by simp)
    | none =>
      simp only
      constructor
      · intro _
        constructor
        · intro x hx
          simpa using List.find?_eq_none.1 h1 x hx
        · intro w hw
          simpa using List.find?_eq_none.1 h2 w hw
      · intro _
        trivial

/-- All-skipped plans expose no windows. -/
theorem windowsOf_map_skippedDecision (ts : List FixedTask) :
    windowsOf (ts.map skippedDecision) = [] := by
  induction ts with
  | nil => rfl
  | cons t ts ih => simp [windowsOf, skippedDecision, ← ih]

/-- Shape of one resolver step: either it skips and commits nothing, or it
schedules a window of exactly the task's duration that was conflict-free
against the events and the windows committed so far, appending it. -/
theorem resolveTask_spec (ev : List CalendarEvent)
    (cm : List (String × Nat × Nat)) (allow : Bool) (createOk : String → Bool)
    (t : FixedTask) :
    ((resolveTask ev cm allow createOk t).1.status = .skipped ∧
      (resolveTask ev cm allow createOk t).1.scheduled_start = none ∧
      (resolveTask ev cm allow createOk t).1.scheduled_end = none ∧
      (resolveTask ev cm allow createOk t).2 = cm) ∨
    (∃ s, (resolveTask ev cm allow createOk t).1.status ≠ .skipped ∧
      (resolveTask ev cm allow createOk t).1.scheduled_start = some s ∧
      (resolveTask ev cm allow createOk t).1.scheduled_end =
        some (s + t.duration_minutes) ∧
      (resolveTask ev cm allow createOk t).2 =
        cm ++ [(t.name, s, s + t.duration_minutes)] ∧
      findConflictW ev cm s (s + t.duration_minutes) = none) := by
  unfold resolveTask
  dsimp only
  cases hf : findConflictW ev cm t.start_time (t.start_time + t.duration_minutes) with
  | none =>
    by_cases hok : createOk t.name = true
    · rw [if_pos hok]
      exact Or.inr ⟨t.start_time, by simp, rfl, rfl, rfl, hf⟩
    · rw [if_neg hok]
      exact Or.inl ⟨rfl, rfl, rfl, rfl⟩
  | some c =>
    obtain ⟨cname, cend⟩ := c
    dsimp only
    by_cases hal : allow = true
    · rw [if_pos hal]
      cases hp : probe ev cm t.duration_minutes cend with
      | some ns =>
        dsimp only
        by_cases hok : createOk t.name = true
        · rw [if_pos hok]
          exact Or.inr ⟨ns, by simp, rfl, rfl, rfl,
            (probe_some_free ev cm t.duration_minutes cend ns hp).1⟩
        · rw [if_neg hok]
          exact Or.inl ⟨rfl, rfl, rfl, rfl⟩
      | none =>
        dsimp only
        exact Or.inl ⟨rfl, rfl, rfl, rfl⟩
    · rw [if_neg hal]
      exact Or.inl ⟨rfl, rfl, rfl, rfl⟩

/-- A skipped decision contributes no window. -/
theorem windowsOf_cons_skipped (d : ScheduleDecision) (ds : List ScheduleDecision)
    (h : d.status = .skipped) : windowsOf (d :: ds) = windowsOf ds := by
  unfold windowsOf
  rw [List.filterMap_cons]
  simp [h]

/-- A non-skipped decision contributes its window. -/
theorem windowsOf_cons_window {s e : Nat} (d : ScheduleDecision)
    (ds : List ScheduleDecision) (hs : d.status ≠ .skipped)
    (h1 : d.scheduled_start = some s) (h2 : d.scheduled_end = some e) :
    windowsOf (d :: ds) = (s, e) :: windowsOf ds := by
  unfold windowsOf
  rw [List.filterMap_cons]
  cases hst : d.status with
  | skipped => exact absurd hst hs
  | scheduled => simp [hst, h1, h2]
  | scheduled_rescheduled => simp [hst, h1, h2]

/-- Resolver invariant: starting from committed windows that are pairwise
disjoint and clear of all events, the emitted non-skipped windows are clear of
all events, are pairwise disjoint (also against the initial committed
windows), and each matches its task's start and duration. -/
theorem resolveDayAux_invariant (ev : List CalendarEvent) (allow : Bool)
    (createOk : String → Bool) :
    ∀ (ts : List FixedTask) (cm : List (String × Nat × Nat)),
      (∀ w ∈ cm, ∀ x ∈ ev, overlapsW w.2.1 w.2.2 x.start x.end_ = false) →
      List.Pairwise noOv (cm.map (fun w => (w.2.1, w.2.2))) →
      (∀ w ∈ windowsOf (resolveDayAux ev allow createOk cm ts), ∀ x ∈ ev,
        overlapsW w.1 w.2 x.start x.end_ = false) ∧
      List.Pairwise noOv (cm.map (fun w => (w.2.1, w.2.2)) ++
        windowsOf (resolveDayAux ev allow createOk cm ts)) ∧
      (∀ d ∈ resolveDayAux ev allow createOk cm ts, d.status ≠ .skipped →
        ∃ t ∈ ts, ∃ s, d.task_name = t.name ∧ d.scheduled_start = some s ∧
          d.scheduled_end = some (s + t.duration_minutes)) := by
  intro ts
  induction ts with
  | nil =>
    intro cm hev hpw
    refine ⟨?_, ?_, ?_⟩
    · intro w hw
      simp [resolveDayAux, windowsOf] at hw
    · simpa [resolveDayAux, windowsOf] using hpw
    · intro d hd
      simp [resolveDayAux] at hd
  | cons t ts ih =>
    intro cm hev hpw
    rcases resolveTask_spec ev cm allow createOk t with
      ⟨hs, hst, hen, hcm⟩ | ⟨s, hns, hst, hen, hcm, hfree⟩
    · have hunf : resolveDayAux ev allow createOk cm (t :: ts) =
          (resolveTask ev cm allow createOk t).1 ::
            resolveDayAux ev allow createOk cm ts := by
        dsimp only [resolveDayAux]
        rw [hcm]
      rw [hunf, windowsOf_cons_skipped _ _ hs]
      obtain ⟨ha, hb, hc⟩ := ih cm hev hpw
      refine ⟨ha, hb, ?_⟩
      intro d hd hdns
      rcases List.mem_cons.1 hd with rfl | hd2
      · exact absurd hs hdns
      · obtain ⟨t2, ht2, hrest⟩ := hc d hd2 hdns
        exact ⟨t2, List.mem_cons_of_mem t ht2, hrest⟩
    · have hunf : resolveDayAux ev allow createOk cm (t :: ts) =
          (resolveTask ev cm allow createOk t).1 ::
            resolveDayAux ev allow createOk
              (cm ++ [(t.name, s, s + t.duration_minutes)]) ts := by
        dsimp only [resolveDayAux]
        rw [hcm]
      have hfree2 := (findConflictW_none_iff ev cm s (s + t.duration_minutes)).1 hfree
      have hev2 : ∀ w ∈ cm ++ [(t.name, s, s + t.duration_minutes)], ∀ x ∈ ev,
          overlapsW w.2.1 w.2.2 x.start x.end_ = false := by
        intro w hw x hx
        rcases List.mem_append.1 hw with hw2 | hw2
        · exact hev w hw2 x hx
        · have hwx : w = (t.name, s, s + t.duration_minutes) := by simpa using hw2
          subst hwx
          exact hfree2.1 x hx
      have hpw2 : List.Pairwise noOv
          ((cm ++ [(t.name, s, s + t.duration_minutes)]).map
            (fun w => (w.2.1, w.2.2))) := by
        rw [List.map_append]
        refine List.pairwise_append.2 ⟨hpw, ?_, ?_⟩
        · simp [List.pairwise_singleton]
        · intro a ha b hb
          have hbx : b = (s, s + t.duration_minutes) := by simpa using hb
          subst hbx
          obtain ⟨w, hw, rfl⟩ := List.mem_map.1 ha
          have h3 := hfree2.2 w hw
          simp only [overlapsW, Bool.and_eq_false_iff, decide_eq_false_iff_not] at h3
          unfold noOv
          dsimp only
          omega
      obtain ⟨ha, hb, hc⟩ := ih (cm ++ [(t.name, s, s + t.duration_minutes)]) hev2 hpw2
      rw [hunf, windowsOf_cons_window _ _ hns hst hen]
      refine ⟨?_, ?_, ?_⟩
      · intro w hw x hx
        rcases List.mem_cons.1 hw with rfl | hw2
        · exact hfree2.1 x hx
        · exact ha w hw2 x hx
      · rw [List.map_append, List.append_assoc] at hb
        exact hb
      · intro d hd hdns
        rcases List.mem_cons.1 hd with rfl | hd2
        · exact ⟨t, List.mem_cons_self t ts, s,
            resolveTask_fst_name ev cm allow createOk t, hst, hen⟩
        · obtain ⟨t2, ht2, hrest⟩ := hc d hd2 hdns
          exact ⟨t2, List.mem_cons_of_mem t ht2, hrest⟩

/-- C2: in every produced DayPlan, each non-skipped decision spans exactly its
task's duration from its scheduled start, the non-skipped windows are pairwise
non-overlapping, and none of them overlaps any calendar event fetched for
that date. -/
theorem scheduleRange_windows_sound (routine : List FixedTask)
    (fetch : Nat → Except String (List CalendarEvent))
    (createOk : Nat → String → Bool) (today : Nat) (intent : ScheduleIntent)
    (plan : DayPlan) (h : plan ∈ scheduleRange routine fetch createOk today intent) :
    (∀ d ∈ plan.decisions, d.status ≠ .skipped →
      ∃ t ∈ tasksForWeekday routine plan.date, ∃ s, d.task_name = t.name ∧
        d.scheduled_start = some s ∧
        d.scheduled_end = some (s + t.duration_minutes)) ∧
    List.Pairwise noOv (windowsOf plan.decisions) ∧
    (∀ evs, fetch plan.date = .ok evs →
      ∀ w ∈ windowsOf plan.decisions, ∀ x ∈ evs,
        overlapsW w.1 w.2 x.start x.end_ = false) := by
  unfold scheduleRange at h
  obtain ⟨i, hi, rfl⟩ := List.mem_map.1 h
  dsimp only
  cases hf : fetch (intent.start_date.getD today + i) with
  | ok evs0 =>
    dsimp only [resolveDay]
    obtain ⟨ha, hb, hc⟩ := resolveDayAux_invariant evs0 intent.allow_reschedule
      (createOk (intent.start_date.getD today + i))
      (tasksForWeekday routine (intent.start_date.getD today + i)) []
      (by intro w hw; simp at hw) (by simp)
    refine ⟨hc, ?_, ?_⟩
    · simpa using hb
    · intro evs hfeq w hw x hx
      rw [hf] at hfeq
      have hee : evs0 = evs := by
        injection hfeq
      subst hee
      exact ha w hw x hx
  | error msg =>
    dsimp only [skippedPlan]
    refine ⟨?_, ?_, ?_⟩
    · intro d hd hdns
      obtain ⟨t, ht, rfl⟩ := List.mem_map.1 hd
      exact absurd rfl hdns
    · rw [windowsOf_map_skippedDecision]
      exact List.Pairwise.nil
    · intro evs hfeq
      rw [hf] at hfeq
      exact absurd hfeq (by simp)

/-- C2 witness: a two-task day with one calendar event. -/
theorem scheduleRange_windows_sound_witness :
    (resolveDay 0 (tasksForWeekday
        [⟨"A", 540, 30, [0, 1, 2, 3, 4, 5, 6]⟩, ⟨"B", 540, 60, [0, 1, 2, 3, 4, 5, 6]⟩] 0)
      [⟨0, 555, 585, "Ev", "e1", false⟩] true (fun _ => true)) ∈
      scheduleRange
        [⟨"A", 540, 30, [0, 1, 2, 3, 4, 5, 6]⟩, ⟨"B", 540, 60, [0, 1, 2, 3, 4, 5, 6]⟩]
        (fun _ => .ok [⟨0, 555, 585, "Ev", "e1", false⟩]) (fun _ _ => true) 0
        ⟨none, 1, true⟩ ∧
    List.Pairwise noOv (windowsOf (resolveDay 0 (tasksForWeekday
        [⟨"A", 540, 30, [0, 1, 2, 3, 4, 5, 6]⟩, ⟨"B", 540, 60, [0, 1, 2, 3, 4, 5, 6]⟩] 0)
      [⟨0, 555, 585, "Ev", "e1", false⟩] true (fun _ => true)).decisions) :=
  ⟨by decide,
   (scheduleRange_windows_sound
      [⟨"A", 540, 30, [0, 1, 2, 3, 4, 5, 6]⟩, ⟨"B", 540, 60, [0, 1, 2, 3, 4, 5, 6]⟩]
      (fun _ => .ok [⟨0, 555, 585, "Ev", "e1", false⟩]) (fun _ _ => true) 0
      ⟨none, 1, true⟩ _ (by decide)).2.1⟩

/-- A truthy result is the original non-empty string. -/
theorem truthy_some {o : Option String} {n : String} (h : truthy o = some n) :
    o = some n ∧ n ≠ "" := by
  cases o with
  | none => simp [truthy] at h
  | some s =>
    simp only [truthy] at h
    by_cases hs : s = ""
    · rw [if_pos hs] at h
      simp at h
    · rw [if_neg hs] at h
      obtain rfl : s = n := by simpa using h
      exact ⟨rfl, hs⟩

/-- Source names produced by the cleaning are never empty. -/
theorem sourceNameOf_ne_empty {r : RawSource} {n : String}
    (h : sourceNameOf r = some n) : n ≠ "" := by
  unfold sourceNameOf at h
  cases h1 : truthy r.source with
  | some s =>
    rw [h1] at h
    obtain rfl : s = n := by simpa using h
    exact (truthy_some h1).2
  | none =>
    rw [h1] at h
    exact (truthy_some h).2

/-- Cleaning preserves the source-name computation. -/
theorem sourceNameOf_cleanEntry {r : RawSource} {n : String}
    (h : sourceNameOf r = some n) : sourceNameOf (cleanEntry r n) = some n := by
  have hne := sourceNameOf_ne_empty h
  have ht : truthy (cleanEntry r n).source = some n := by
    show truthy (some n) = some n
    simp only [truthy]
    rw [if_neg hne]
  unfold sourceNameOf
  rw [ht]

/-- Cleaning preserves the chunk-index computation. -/
theorem chunkIndexOf_cleanEntry (r : RawSource) (n : String) :
    chunkIndexOf (cleanEntry r n) = chunkIndexOf r := by
  have heq : chunkIndexOf (cleanEntry r n) =
      match chunkIndexOf r with
      | some i => some i
      | none =>
        match r.meta_chunk_index with
        | some i => some i
        | none => r.meta_chunkIndex := rfl
  rw [heq]
  cases h1 : chunkIndexOf r with
  | some i => rfl
  | none =>
    simp only [chunkIndexOf] at h1
    cases h2 : r.chunk_index with
    | some i =>
      simp only [h2] at h1
      exact absurd h1 (by simp)
    | none =>
      simp only [h2] at h1
      cases h3 : r.meta_chunk_index with
      | some i =>
        simp only [h3] at h1
        exact absurd h1 (by simp)
      | none =>
        simp only [h3] at h1
        simp [h3, h1]

/-- Cleaning preserves the snippet computation. -/
theorem snippetOf_cleanEntry (r : RawSource) (n : String) :
    snippetOf (cleanEntry r n) = snippetOf r := by
  by_cases h : snippetOf r = ""
  · have hparts : truthy r.meta_snippet = none := by
      unfold snippetOf at h
      cases h1 : truthy r.snippet with
      | some s =>
        rw [h1] at h
        simp only at h
        exact absurd h (truthy_some h1).2
      | none =>
        rw [h1] at h
        cases h2 : truthy r.meta_snippet with
        | some s =>
          rw [h2] at h
          simp only at h
          exact absurd h (truthy_some h2).2
        | none => rfl
    have h1 : truthy (cleanEntry r n).snippet = none := by
      show truthy (some (snippetOf r)) = none
      simp only [truthy]
      rw [if_pos h]
    have h2 : truthy (cleanEntry r n).meta_snippet = none := by
      show truthy r.meta_snippet = none
      exact hparts
    conv_lhs => unfold snippetOf
    rw [h1, h2]
    exact h.symm
  · have h1 : truthy (cleanEntry r n).snippet = some (snippetOf r) := by
      show truthy (some (snippetOf r)) = some (snippetOf r)
      simp only [truthy]
      rw [if_neg h]
    conv_lhs => unfold snippetOf
    rw [h1]

/-- The key recomputed from an entry with a source name is the loop's key. -/
theorem entryKey_of_name {r : RawSource} {n : String}
    (h : sourceNameOf r = some n) :
    entryKey r = keyOf n (chunkIndexOf r) (snippetOf r) := by
  unfold entryKey
  rw [h]
  rfl

/-- The cleaned entry carries the same key as its raw entry. -/
theorem entryKey_cleanEntry {r : RawSource} {n : String}
    (h : sourceNameOf r = some n) :
    entryKey (cleanEntry r n) = keyOf n (chunkIndexOf r) (snippetOf r) := by
  unfold entryKey
  rw [sourceNameOf_cleanEntry h, chunkIndexOf_cleanEntry, snippetOf_cleanEntry]
  rfl

/-- Cleaned entries are fixed points of normalization. -/
theorem normalizeEntry_cleanEntry {r : RawSource} {n : String}
    (h : sourceNameOf r = some n) :
    normalizeEntry (cleanEntry r n) = some (cleanEntry r n) := by
  unfold normalizeEntry
  rw [sourceNameOf_cleanEntry h]
  show some ({ cleanEntry r n with
    source := some n
    chunk_index := chunkIndexOf (cleanEntry r n)
    snippet := some (snippetOf (cleanEntry r n)) }) = some (cleanEntry r n)
  rw [chunkIndexOf_cleanEntry, snippetOf_cleanEntry]
  rfl

/-- Every cleaned entry is the cleaning of some raw entry with a source name,
and its key avoids the seen set. -/
theorem mem_cleanSourcesAux :
    ∀ (l : List RawSource) (seen : List String) (e : RawSource),
      e ∈ cleanSourcesAux seen l →
      (∃ r n, sourceNameOf r = some n ∧ e = cleanEntry r n) ∧ entryKey e ∉ seen := by
  intro l
  induction l with
  | nil =>
    intro seen e he
    simp [cleanSourcesAux] at he
  | cons r rest ih =>
    intro seen e he
    simp only [cleanSourcesAux] at he
    cases hn : sourceNameOf r with
    | none =>
      simp only [hn] at he
      exact ih seen e he
    | some name =>
      simp only [hn] at he
      by_cases hk : keyOf name (chunkIndexOf r) (snippetOf r) ∈ seen
      · rw [if_pos hk] at he
        exact ih seen e he
      · rw [if_neg hk] at he
        rcases List.mem_cons.1 he with rfl | he2
        · refine ⟨⟨r, name, hn, rfl⟩, ?_⟩
          rw [entryKey_cleanEntry hn]
          exact hk
        · obtain ⟨hex, hnot⟩ := ih
            (keyOf name (chunkIndexOf r) (snippetOf r) :: seen) e he2
          exact ⟨hex, fun hmem => hnot (List.mem_cons_of_mem _ hmem)⟩

/-- The cleaned entries have pairwise distinct keys. -/
theorem keys_nodup_cleanSourcesAux :
    ∀ (l : List RawSource) (seen : List String),
      ((cleanSourcesAux seen l).map entryKey).Nodup := by
  intro l
  induction l with
  | nil =>
    intro seen
    simp [cleanSourcesAux]
  | cons r rest ih =>
    intro seen
    simp only [cleanSourcesAux]
    cases hn : sourceNameOf r with
    | none => exact ih seen
    | some name =>
      dsimp only
      by_cases hk : keyOf name (chunkIndexOf r) (snippetOf r) ∈ seen
      · rw [if_pos hk]
        exact ih seen
      · rw [if_neg hk]
        simp only [List.map_cons, List.nodup_cons]
        refine ⟨?_, ih _⟩
        intro hmem
        obtain ⟨e, he, heq⟩ := List.mem_map.1 hmem
        have h2 := (mem_cleanSourcesAux rest
          (keyOf name (chunkIndexOf r) (snippetOf r) :: seen) e he).2
        rw [heq, entryKey_cleanEntry hn] at h2
        exact h2 (List.mem_cons_self _ _)

/-- The cleaned list is a subsequence of the normalized entries, in order. -/
theorem cleanSourcesAux_sublist :
    ∀ (l : List RawSource) (seen : List String),
      (cleanSourcesAux seen l).Sublist (l.filterMap normalizeEntry) := by
  intro l
  induction l with
  | nil =>
    intro seen
    simp [cleanSourcesAux]
  | cons r rest ih =>
    intro seen
    simp only [cleanSourcesAux]
    cases hn : sourceNameOf r with
    | none =>
      have h0 : normalizeEntry r = none := by
        unfold normalizeEntry
        rw [hn]
      simp only [List.filterMap_cons, h0]
      exact ih seen
    | some name =>
      have h1 : normalizeEntry r = some (cleanEntry r name) := by
        unfold normalizeEntry
        rw [hn]
      simp only [List.filterMap_cons, h1]
      by_cases hk : keyOf name (chunkIndexOf r) (snippetOf r) ∈ seen
      · rw [if_pos hk]
        exact (ih seen).cons _
      · rw [if_neg hk]
        exact (ih _).cons₂ _

/-- Every cleaned entry is the first normalized entry bearing its key. -/
theorem find?_cleanSourcesAux :
    ∀ (l : List RawSource) (seen : List String) (e : RawSource),
      e ∈ cleanSourcesAux seen l →
      (l.filterMap normalizeEntry).find? (fun x => entryKey x == entryKey e) =
        some e := by
  intro l
  induction l with
  | nil =>
    intro seen e he
    simp [cleanSourcesAux] at he
  | cons r rest ih =>
    intro seen e he
    simp only [cleanSourcesAux] at he
    cases hn : sourceNameOf r with
    | none =>
      simp only [hn] at he
      have h0 : normalizeEntry r = none := by
        unfold normalizeEntry
        rw [hn]
      simp only [List.filterMap_cons, h0]
      exact ih seen e he
    | some name =>
      simp only [hn] at he
      have h1 : normalizeEntry r = some (cleanEntry r name) := by
        unfold normalizeEntry
        rw [hn]
      simp only [List.filterMap_cons, h1]
      by_cases hk : keyOf name (chunkIndexOf r) (snippetOf r) ∈ seen
      · rw [if_pos hk] at he
        have h2 := (mem_cleanSourcesAux rest seen e he).2
        have hb : (entryKey (cleanEntry r name) == entryKey e) = false := by
          rw [entryKey_cleanEntry hn]
          refine beq_eq_false_iff_ne.2 ?_
          intro hc
          rw [← hc] at h2
          exact h2 hk
        simp only [List.find?_cons, hb]
        exact ih seen e he
      · rw [if_neg hk] at he
        rcases List.mem_cons.1 he with rfl | he2
        · exact List.find?_cons_of_pos _ (by simp)
        · have h2 := (mem_cleanSourcesAux rest
            (keyOf name (chunkIndexOf r) (snippetOf r) :: seen) e he2).2
          have hb : (entryKey (cleanEntry r name) == entryKey e) = false := by
            rw [entryKey_cleanEntry hn]
            refine beq_eq_false_iff_ne.2 ?_
            intro hc
            rw [← hc] at h2
            exact h2 (List.mem_cons_self _ _)
          simp only [List.find?_cons, hb]
          exact ih _ e he2

/-- Every normalized entry's key survives the dedupe (unless already seen). -/
theorem complete_cleanSourcesAux :
    ∀ (l : List RawSource) (seen : List String) (x : RawSource),
      x ∈ l.filterMap normalizeEntry →
      (∃ e ∈ cleanSourcesAux seen l, entryKey e = entryKey x) ∨
        entryKey x ∈ seen := by
  intro l
  induction l with
  | nil =>
    intro seen x hx
    simp at hx
  | cons r rest ih =>
    intro seen x hx
    simp only [cleanSourcesAux]
    cases hn : sourceNameOf r with
    | none =>
      have h0 : normalizeEntry r = none := by
        unfold normalizeEntry
        rw [hn]
      simp only [List.filterMap_cons, h0] at hx
      exact ih seen x hx
    | some name =>
      have h1 : normalizeEntry r = some (cleanEntry r name) := by
        unfold normalizeEntry
        rw [hn]
      simp only [List.filterMap_cons, h1] at hx
      dsimp only
      by_cases hk : keyOf name (chunkIndexOf r) (snippetOf r) ∈ seen
      · rw [if_pos hk]
        rcases List.mem_cons.1 hx with rfl | hx2
        · right
          rw [entryKey_cleanEntry hn]
          exact hk
        · exact ih seen x hx2
      · rw [if_neg hk]
        rcases List.mem_cons.1 hx with rfl | hx2
        · exact Or.inl ⟨cleanEntry r name, List.mem_cons_self _ _, rfl⟩
        · rcases ih (keyOf name (chunkIndexOf r) (snippetOf r) :: seen) x hx2 with
            ⟨e, he, heq⟩ | hseen
          · exact Or.inl ⟨e, List.mem_cons_of_mem _ he, heq⟩
          · rcases List.mem_cons.1 hseen with heq | hseen2
            · refine Or.inl ⟨cleanEntry r name, List.mem_cons_self _ _, ?_⟩
              rw [entryKey_cleanEntry hn]
              exact heq.symm
            · exact Or.inr hseen2

/-- Cleaning is the identity on lists of normalization fixed points with
pairwise distinct, unseen keys. -/
theorem cleanSourcesAux_id :
    ∀ (m : List RawSource) (seen : List String),
      (∀ e ∈ m, normalizeEntry e = some e) →
      ((m.map entryKey).Nodup) →
      (∀ e ∈ m, entryKey e ∉ seen) →
      cleanSourcesAux seen m = m := by
  intro m
  induction m with
  | nil =>
    intro seen _ _ _
    rfl
  | cons e m ih =>
    intro seen hfix hnd hseen
    have hfixe := hfix e (List.mem_cons_self _ _)
    unfold normalizeEntry at hfixe
    cases hn : sourceNameOf e with
    | none =>
      rw [hn] at hfixe
      simp at hfixe
    | some name =>
      rw [hn] at hfixe
      have hee : cleanEntry e name = e := by simpa using hfixe
      have hkey : keyOf name (chunkIndexOf e) (snippetOf e) = entryKey e :=
        (entryKey_of_name hn).symm
      simp only [cleanSourcesAux, hn, hkey]
      rw [if_neg (hseen e (List.mem_cons_self _ _))]
      rw [hee]
      congr 1
      simp only [List.map_cons, List.nodup_cons] at hnd
      refine ih (entryKey e :: seen) (fun x hx => hfix x (List.mem_cons_of_mem _ hx))
        hnd.2 ?_
      intro x hx
      rw [List.mem_cons]
      rintro (hc | hc)
      · exact hnd.1 (hc ▸ List.mem_map_of_mem entryKey hx)
      · exact hseen x (List.mem_cons_of_mem _ hx) hc

/-- C10 counterexample: with the (source, chunk_index, snippet) triple as the
key, "keeps the first occurrence of each key" fails — the string key
`source::chunkIndex::snippet` collides for the distinct triples
("a", null, "::b") and ("a::", null, "b"), so the second entry is dropped
even though its triple never occurred before. -/
theorem cleanSources_drops_later_triple :
    ¬ (∀ x ∈ (([⟨some "a", none, some "::b", none, none, none, none⟩,
          ⟨some "a::", none, some "b", none, none, none, none⟩] :
            List RawSource).filterMap normalizeEntry),
        ∃ e ∈ cleanSources
            [⟨some "a", none, some "::b", none, none, none, none⟩,
             ⟨some "a::", none, some "b", none, none, none, none⟩],
          tripleOf e = tripleOf x) := by
  decide

/-- C10 (amended): every cleaned entry has a non-empty source name; the
cleaned entries have pairwise distinct string keys `source::chunkIndex::snippet`
(hence pairwise distinct (source, chunk_index, snippet) triples); the cleaned
list is a subsequence of the normalized raw entries that keeps, for each
string key, exactly the first normalized entry bearing it; and cleaning is
idempotent. -/
theorem cleanSources_spec (l : List RawSource) :
    (∀ e ∈ cleanSources l, ∃ s, e.source = some s ∧ s ≠ "") ∧
    ((cleanSources l).map entryKey).Nodup ∧
    List.Pairwise (fun a b => tripleOf a ≠ tripleOf b) (cleanSources l) ∧
    (cleanSources l).Sublist (l.filterMap normalizeEntry) ∧
    (∀ e ∈ cleanSources l,
      (l.filterMap normalizeEntry).find? (fun x => entryKey x == entryKey e) =
        some e) ∧
    (∀ x ∈ l.filterMap normalizeEntry,
      ∃ e ∈ cleanSources l, entryKey e = entryKey x) ∧
    cleanSources (cleanSources l) = cleanSources l := by
  refine ⟨?_, keys_nodup_cleanSourcesAux l [], ?_, cleanSourcesAux_sublist l [],
    ?_, ?_, ?_⟩
  · intro e he
    obtain ⟨⟨r, n, hn, rfl⟩, -⟩ := mem_cleanSourcesAux l [] e he
    exact ⟨n, rfl, sourceNameOf_ne_empty hn⟩
  · have hp : List.Pairwise (fun a b => entryKey a ≠ entryKey b) (cleanSources l) :=
      List.pairwise_map.1 (keys_nodup_cleanSourcesAux l [])
    refine hp.imp ?_
    intro a b hne htr
    apply hne
    show keyOf (tripleOf a).1 (tripleOf a).2.1 (tripleOf a).2.2 =
      keyOf (tripleOf b).1 (tripleOf b).2.1 (tripleOf b).2.2
    rw [htr]
  · intro e he
    exact find?_cleanSourcesAux l [] e he
  · intro x hx
    rcases complete_cleanSourcesAux l [] x hx with h | h
    · exact h
    · simp at h
  · refine cleanSourcesAux_id (cleanSources l) [] ?_
      (keys_nodup_cleanSourcesAux l []) ?_
    · intro e he
      obtain ⟨⟨r, n, hn, rfl⟩, -⟩ := mem_cleanSourcesAux l [] e he
      exact normalizeEntry_cleanEntry hn
    · intro e he
      simp

/-- C10 witness: idempotence on a concrete list with a duplicate and an
unnamed entry. -/
theorem cleanSources_spec_witness :
    cleanSources (cleanSources
      [⟨some "doc.pdf", some 0, some "intro", none, none, none, none⟩,
       ⟨some "doc.pdf", some 0, some "intro", none, none, none, none⟩,
       ⟨none, some 1, some "x", none, none, none, none⟩]) =
    cleanSources
      [⟨some "doc.pdf", some 0, some "intro", none, none, none, none⟩,
       ⟨some "doc.pdf", some 0, some "intro", none, none, none, none⟩,
       ⟨none, some 1, some "x", none, none, none, none⟩] :=
  (cleanSources_spec
    [⟨some "doc.pdf", some 0, some "intro", none, none, none, none⟩,
     ⟨some "doc.pdf", some 0, some "intro", none, none, none, none⟩,
     ⟨none, some 1, some "x", none, none, none, none⟩]).2.2.2.2.2.2
